import Mathlib

/-!
Verification development for the Finch heat-conduction solver.

Shallow embedding of the parts of the source relevant to the claims:
the moving-beam scan-path evaluator (src/MovingBeam/MovingBeam.cpp),
the solidification event sampler (src/Finch_SolidificationData.hpp),
the FTCS solver heat-capacity computation (Finch_Solver.hpp) and the
boundary-condition component (Finch_Boundary.hpp).

C++ `double` values are modelled by `ℚ` (exact real arithmetic on the
rational constants appearing in the claims); C++ `int` values by `ℤ`
or `ℕ` with the C++ integer operations (in particular, truncating
integer division) made explicit.
-/

section
attribute [local semireducible] Rat.mul Rat.add Rat.inv Rat.sub

namespace Finch

/-- A grid cell index (i, j, k), as the `int` triples of the source. -/
abbrev Cell : Type := ℤ × ℤ × ℤ

/-- A 3-vector of coordinates. -/
abbrev Vec3 : Type := ℚ × ℚ × ℚ

/-! ## Solver: effective heat capacity (Finch_Solver.hpp)

The host kernel `operator()(HostTag, i, j, k)` computes
`dt_by_rho_cp` with a branch on `x >= solidus_ && x <= liquidus_`;
the device kernel `operator()(DeviceTag, i, j, k)` computes it
branchlessly as `dt_ / (rho_cp_ + (x >= solidus_) * (x <= liquidus_) * rho_Lf_by_dT_)`.
Both then write `T(i,j,k) = x + rhs * dt_by_rho_cp` where
`rhs = laplacian(i,j,k) + source(tag,i,j,k)`. -/

/-- Precomputed solver constants (members of `Solver`). -/
structure SolverParams where
  dt : ℚ
  solidus : ℚ
  liquidus : ℚ
  rho_cp : ℚ
  rho_Lf_by_dT : ℚ

/-- Host-kernel `dt_by_rho_cp`: branching form from `operator()(HostTag, ...)`. -/
def hostDtByRhoCp (p : SolverParams) (x : ℚ) : ℚ :=
  if x ≥ p.solidus ∧ x ≤ p.liquidus then p.dt / (p.rho_cp + p.rho_Lf_by_dT)
  else p.dt / p.rho_cp

/-- The C++ bool-to-arithmetic conversion used by the device kernel. -/
def boolInd (b : Bool) : ℚ := if b then 1 else 0

/-- Device-kernel `dt_by_rho_cp`: branchless indicator-multiplication form
from `operator()(DeviceTag, ...)`. -/
def deviceDtByRhoCp (p : SolverParams) (x : ℚ) : ℚ :=
  p.dt / (p.rho_cp + boolInd (decide (x ≥ p.solidus)) * boolInd (decide (x ≤ p.liquidus)) * p.rho_Lf_by_dT)

/-- Host-kernel cell update `T(i,j,k) = x + rhs * dt_by_rho_cp`
given the previous temperature `x` and `rhs = laplacian + source`. -/
def hostCellUpdate (p : SolverParams) (x rhs : ℚ) : ℚ :=
  x + rhs * hostDtByRhoCp p x

/-- Device-kernel cell update, same shape with the branchless factor. -/
def deviceCellUpdate (p : SolverParams) (x rhs : ℚ) : ℚ :=
  x + rhs * deviceDtByRhoCp p x

/-! ## MovingBeam (src/MovingBeam/MovingBeam.cpp, Segment.cpp)

`Segment` stores mode, position, power, parameter and absolute end time;
the default constructor produces the sentinel `(mode=1, (0,0,0), power=0,
parameter=0, time=0)`. `MovingBeam` holds the loaded path, a cached index,
the current position/power, and the end time of the last powered segment. -/

/-- One scan-path segment (class `Segment`); `mode` is stored as a
`double` in the source, hence `ℚ` here. -/
structure Segment where
  mode : ℚ
  pos : Vec3
  power : ℚ
  parameter : ℚ
  time : ℚ
deriving DecidableEq

/-- The `Segment()` default constructor: mode 1, origin, power 0,
parameter 0, time 0.  It is the sentinel at path index 0. -/
def initSegment : Segment := ⟨1, (0, 0, 0), 0, 0, 0⟩

/-- The tolerance `MovingBeam::eps = 1e-10`. -/
def eps : ℚ := 1 / 10000000000

/-- State of a `MovingBeam` object: loaded path, cached path index,
current beam position and power, and the stored (double) end time. -/
structure BeamState where
  path : List Segment
  index : ℕ
  position : Vec3
  power : ℚ
  endTime : ℚ

/-- Indexing `path[i]` (always in bounds in the source; out-of-range
reads default to the sentinel). -/
def seg (path : List Segment) (i : ℕ) : Segment := path.getD i initSegment

/-- Number of the last valid path index, `n = path.size() - 1`. -/
def pathN (path : List Segment) : ℕ := path.length - 1

/-- The first loop of `findIndex`:
`for (i = index_; i > 0 && path[i].time() > time; --i) {}`. -/
def backWalk (path : List Segment) (t : ℚ) : ℕ → ℕ
  | 0 => 0
  | i + 1 => if (seg path (i + 1)).time > t then backWalk path t i else i + 1

/-- The second loop of `findIndex`:
`for ( ; i < n && path[i].time() < time; ++i) {}`, with explicit fuel
(any fuel with `n ≤ i + fuel` gives the loop's exit point). -/
def fwdWalk (path : List Segment) (t : ℚ) (n : ℕ) : ℕ → ℕ → ℕ
  | i, 0 => i
  | i, fuel + 1 =>
      if i < n ∧ (seg path i).time < t then fwdWalk path t n (i + 1) fuel else i

/-- The third loop of `findIndex`: skip point sources with zero time,
`while (i < n) { if (mode==1 && parameter==0) ++i else break }`. -/
def skipWalk (path : List Segment) (n : ℕ) : ℕ → ℕ → ℕ
  | i, 0 => i
  | i, fuel + 1 =>
      if i < n ∧ (seg path i).mode = 1 ∧ (seg path i).parameter = 0 then
        skipWalk path n (i + 1) fuel
      else i

/-- `MovingBeam::findIndex(time)` starting from cached index `idx`:
walk back, walk forward, skip zero-time point sources, then clamp to
`[0, n]`. -/
def findIndex (path : List Segment) (idx : ℕ) (t : ℚ) : ℕ :=
  let n := pathN path
  let i1 := backWalk path t idx
  let i2 := fwdWalk path t n i1 n
  let i3 := skipWalk path n i2 n
  min (max i3 0) n

/-- The mode-0 position update of `MovingBeam::move`: componentwise
`position[d] = path[i-1].position()[d] + dx[d] * (time - t_prev) / dt`
when `dt > 0`, else the previous segment's position. -/
def interpPosition (sPrev sCur : Segment) (t : ℚ) : Vec3 :=
  let dt := sCur.time - sPrev.time
  if dt > 0 then
    (sPrev.pos.1 + (sCur.pos.1 - sPrev.pos.1) * (t - sPrev.time) / dt,
     sPrev.pos.2.1 + (sCur.pos.2.1 - sPrev.pos.2.1) * (t - sPrev.time) / dt,
     sPrev.pos.2.2 + (sCur.pos.2.2 - sPrev.pos.2.2) * (t - sPrev.time) / dt)
  else sPrev.pos

/-- `MovingBeam::move(time)`. Past the end of the path (by more than
`eps`) it only zeroes the power and returns; otherwise it updates the
cached index, the position (dwell: jump; line: linear interpolation)
and the power. -/
def move (b : BeamState) (t : ℚ) : BeamState :=
  if t - b.endTime > eps then { b with power := 0 }
  else
    let i := findIndex b.path b.index t
    let sc := seg b.path i
    let sp := seg b.path (i - 1)
    let newPos := if sc.mode = 1 then sc.pos else interpPosition sp sc t
    let newPow := if t - sp.time > eps then sc.power else sp.power
    { b with index := i, position := newPos, power := newPow }

/-- The time-assignment loop of `MovingBeam::readPath`, parameterized by
the Euclidean distance function `dist` (the source computes
`sqrt(Σ (p0[d]-p1[d])²)`, which is irrational in general; claims
instantiate `dist` with its exact value on the pairs they use).
Dwell: `time[i] = time[i-1] + parameter`;
line: `time[i] = time[i-1] + dist(position[i-1], position[i]) / parameter`. -/
def setTimesGo (dist : Vec3 → Vec3 → ℚ) : ℚ → Vec3 → List Segment → List Segment
  | _, _, [] => []
  | tp, pp, s :: rest =>
      let tn := if s.mode = 1 then tp + s.parameter else tp + dist pp s.pos / s.parameter
      { s with time := tn } :: setTimesGo dist tn s.pos rest

/-- A loaded path: the sentinel segment followed by the raw segments
with their end times assigned by the `readPath` recurrence. -/
def loadPath (dist : Vec3 → Vec3 → ℚ) (raw : List Segment) : List Segment :=
  initSegment :: setTimesGo dist 0 (0, 0, 0) raw

/-- The end-time loop of the `MovingBeam` constructor: the `time` of the
last segment (greatest index `i > 0`) whose power exceeds `eps`, else 0. -/
def findEndTime (path : List Segment) : ℚ :=
  match (path.drop 1).reverse.find? (fun s => decide (s.power > eps)) with
  | some s => s.time
  | none => 0

/-- The `MovingBeam` constructor: load the path, start at index 0 with
position (0,0,0) and power 0, and record the end time. -/
def mkBeam (dist : Vec3 → Vec3 → ℚ) (raw : List Segment) : BeamState :=
  ⟨loadPath dist raw, 0, (0, 0, 0), 0, findEndTime (loadPath dist raw)⟩

/-- The `int endTime() const { return endTime_; }` accessor: the stored
double end time converted to `int`, i.e. truncated toward zero. -/
def ratTruncToInt (q : ℚ) : ℤ := if 0 ≤ q then ⌊q⌋ else ⌈q⌉

/-- Public accessor `MovingBeam::endTime()` (declared `int`, member is
`double`). -/
def endTimeAccessor (b : BeamState) : ℤ := ratTruncToInt b.endTime

/-- Invariants a path acquires from `readPath` (the spec's data model):
the sentinel at index 0, every segment's mode 0 or 1, the dwell time
recurrence `time[k] = time[k-1] + parameter`, and non-decreasing end
times (line segments add `distance / speed ≥ 0` for valid inputs). -/
def loadedPath (path : List Segment) : Prop :=
  path ≠ [] ∧ seg path 0 = initSegment ∧
  ∀ k, k < path.length → 1 ≤ k →
    ((seg path k).mode = 0 ∨ (seg path k).mode = 1) ∧
    ((seg path k).mode = 1 →
      (seg path k).time = (seg path (k - 1)).time + (seg path k).parameter) ∧
    (seg path (k - 1)).time ≤ (seg path k).time

instance (path : List Segment) : Decidable (loadedPath path) := by
  unfold loadedPath
  infer_instance

/-! ## SolidificationData (src/Finch_SolidificationData.hpp)

The sampler owns an `events` buffer of `capacity × 9` doubles, an atomic
counter `count`, and a per-cell melt-time field `tm_view`.  The parallel
pass `updateEvents` is embedded as a sequential fold over the owned cell
list (the device pass is a race-resolved permutation of it; all claims
are order-insensitive or phrased in this iteration order).  The `enabled_`
early-out of `update` is omitted: every claim concerns an enabled sampler. -/

/-- One 9-component event row: x, y, z, tm, ts, R, Gx, Gy, Gz. -/
structure EventRecord where
  x : ℚ
  y : ℚ
  z : ℚ
  tm : ℚ
  ts : ℚ
  R : ℚ
  gx : ℚ
  gy : ℚ
  gz : ℚ
deriving DecidableEq

/-- Per-object data the kernel reads: liquidus, dt, cell size, the mesh
cell-center coordinates, and the two temperature views of the grid. -/
structure GridEnv where
  liquidus : ℚ
  dt : ℚ
  cellSize : ℚ
  coords : Cell → Vec3
  T : Cell → ℚ
  T0 : Cell → ℚ

/-- Mutable state of a `SolidificationData` object.  `buffer i = none`
models an uninitialized row (the view is allocated
`WithoutInitializing`); `Kokkos::resize` preserves already-written rows. -/
structure SolidState where
  count : ℕ
  capacity : ℕ
  buffer : ℕ → Option EventRecord
  tm : Cell → ℚ

/-- The solidification-detection condition
`(temp <= liquidus_) && (temp0 > liquidus_)`. -/
def isSolidify (env : GridEnv) (c : Cell) : Bool :=
  decide (env.T c ≤ env.liquidus) && decide (env.liquidus < env.T0 c)

/-- The melt-detection condition `(temp > liquidus_) && (temp0 <= liquidus_)`. -/
def isMelt (env : GridEnv) (c : Cell) : Bool :=
  decide (env.liquidus < env.T c) && decide (env.T0 c ≤ env.liquidus)

/-- The C `fmin` on exact rationals. -/
def fmin (a b : ℚ) : ℚ := if a ≤ b then a else b

/-- The C `fmax` on exact rationals. -/
def fmax (a b : ℚ) : ℚ := if b ≤ a then a else b

/-- The interpolated crossing time `time - m * dt` with
`m = fmin(fmax((temp - liquidus)/(temp - temp0), 0), 1)`; used both for
the recorded `ts` and for the `tm_view` melt write. -/
def crossTime (env : GridEnv) (time : ℚ) (c : Cell) : ℚ :=
  let m := fmin (fmax ((env.T c - env.liquidus) / (env.T c - env.T0 c)) 0) 1
  time - m * env.dt

/-- The event row written for a solidification crossing at cell `c`
(body of the `current_count < capacity` branch of `updateEvents`). -/
def mkRecord (env : GridEnv) (time : ℚ) (tm : Cell → ℚ) (c : Cell) : EventRecord where
  x := (env.coords c).1
  y := (env.coords c).2.1
  z := (env.coords c).2.2
  tm := tm c
  ts := crossTime env time c
  R := (env.T0 c - env.T c) / env.dt
  gx := (env.T (c.1 + 1, c.2.1, c.2.2) - env.T (c.1 - 1, c.2.1, c.2.2)) / (2 * env.cellSize)
  gy := (env.T (c.1, c.2.1 + 1, c.2.2) - env.T (c.1, c.2.1 - 1, c.2.2)) / (2 * env.cellSize)
  gz := (env.T (c.1, c.2.1, c.2.2 + 1) - env.T (c.1, c.2.1, c.2.2 - 1)) / (2 * env.cellSize)

/-- The body of the `updateEvents` kernel for one cell: on a downward
liquidus crossing, `atomic_fetch_add` the counter and, if the
pre-increment value is below capacity, write the event row there; on an
upward crossing, store the interpolated melt time in `tm_view`. -/
def processCell (env : GridEnv) (time : ℚ) (s : SolidState) (c : Cell) : SolidState :=
  if isSolidify env c then
    let idx := s.count
    let s2 := { s with count := s.count + 1 }
    if idx < s.capacity then
      { s2 with buffer := Function.update s.buffer idx (some (mkRecord env time s.tm c)) }
    else s2
  else if isMelt env c then
    { s with tm := Function.update s.tm c (crossTime env time c) }
  else s

/-- `SolidificationData::updateEvents(grid, time)`: one pass over the
owned index space. -/
def updateEvents (env : GridEnv) (time : ℚ) (cells : List Cell) (s : SolidState) : SolidState :=
  cells.foldl (processCell env time) s

/-- The cells of a pass that record a solidification event, in iteration
order. -/
def crossCells (env : GridEnv) (cells : List Cell) : List Cell :=
  cells.filter (isSolidify env)

/-- `SolidificationData::update(grid, time)`: run a pass, then compare the
new counter with the capacity.  On overflow (`new_count >= capacity`)
resize to `2 * new_count` rows, restore the counter, and re-run the pass.
Otherwise the source compares `new_count / capacity > 0.9` where both
operands are `int`: the quotient is C++ integer division, converted to
`double` for the comparison, exactly as written here. -/
def update (env : GridEnv) (time : ℚ) (cells : List Cell) (s : SolidState) : SolidState :=
  let countOld := s.count
  let s1 := updateEvents env time cells s
  let newCount := s1.count
  if newCount ≥ s1.capacity then
    updateEvents env time cells { s1 with capacity := 2 * newCount, count := countOld }
  else if ((newCount / s1.capacity : ℕ) : ℚ) > 9 / 10 then
    { s1 with capacity := 2 * newCount }
  else s1

/-- `SolidificationData::get()`: the host copy of rows `[0, count)`. -/
def getData (s : SolidState) : List (Option EventRecord) :=
  (List.range s.count).map s.buffer

/-! ## Boundary (Finch_Boundary.hpp)

Six faces in the fixed order -x, +x, -y, +y, -z, +z (axis `d = f / 2`,
side `dir = -1` for even `f`, `+1` for odd `f`).  `storeTypes` hoists the
type strings to integer tags; note that its final `else` branch merely
constructs `std::runtime_error("Invalid boundary type.")` without
throwing it, so an unknown string leaves the tag unassigned (modelled as
`none`).  `update` is a fused parallel-for over the six face ghost index
spaces (`boundaryIndexSpace(Ghost(), ...)` of a width-1 halo: the face
slab spans the owned extents in the transverse axes, edge and corner
ghosts excluded). -/

/-- Local owned extents of the grid block along x, y, z. -/
structure Extents where
  nx : ℕ
  ny : ℕ
  nz : ℕ

/-- Extent along an axis. -/
def extAt (e : Extents) : Fin 3 → ℕ
  | 0 => e.nx
  | 1 => e.ny
  | 2 => e.nz

/-- Coordinate of a cell along an axis. -/
def coordAt (p : Cell) : Fin 3 → ℤ
  | 0 => p.1
  | 1 => p.2.1
  | 2 => p.2.2

/-- Axis of face `f` (the loop variable `d` of `Boundary::create`). -/
def axisOf (f : Fin 6) : Fin 3 := ⟨f.val / 2, by omega⟩

/-- The outward normal `boundary_planes[f]`: `-e_d` for even `f`,
`+e_d` for odd `f`. -/
def facePlane (f : Fin 6) : Cell :=
  let dir : ℤ := if f.val % 2 = 0 then -1 else 1
  (if axisOf f = 0 then dir else 0,
   if axisOf f = 1 then dir else 0,
   if axisOf f = 2 then dir else 0)

/-- Ghost-layer coordinate of face `f` along its axis: `-1` on the low
side, the owned extent on the high side (halo width 1). -/
def slabCoord (e : Extents) (f : Fin 6) : ℤ :=
  if f.val % 2 = 0 then -1 else (extAt e (axisOf f) : ℤ)

/-- Membership in the ghost boundary index space of face `f`
(`boundaryIndexSpace(Ghost(), entity, plane)`): the face's ghost
coordinate along its axis, owned range along the other two axes. -/
def inSlab (e : Extents) (f : Fin 6) (p : Cell) : Prop :=
  coordAt p (axisOf f) = slabCoord e f ∧
  ∀ a : Fin 3, a ≠ axisOf f → 0 ≤ coordAt p a ∧ coordAt p a < (extAt e a : ℤ)

instance (e : Extents) (f : Fin 6) (p : Cell) : Decidable (inSlab e f p) := by
  unfold inSlab
  infer_instance

/-- A locally-owned cell: all three coordinates in the owned range. -/
def ownedCell (e : Extents) (p : Cell) : Prop :=
  ∀ a : Fin 3, 0 ≤ coordAt p a ∧ coordAt p a < (extAt e a : ℤ)

instance (e : Extents) (p : Cell) : Decidable (ownedCell e p) := by
  unfold ownedCell
  infer_instance

/-- The kernel body of `Boundary::update` for face `b = f` at ghost `p`:
tag 0 sets the value, tag 1 adds the value, anything else mirrors the
cell one step inward along the outward normal. -/
def faceApply (tag : Fin 6 → ℤ) (vals : Fin 6 → ℚ) (T : Cell → ℚ) (f : Fin 6) (p : Cell) : ℚ :=
  if tag f = 0 then vals f
  else if tag f = 1 then T p + vals f
  else T (p - facePlane f)

/-- `Boundary::update`: the fused `grid_parallel_for` over the six face
ghost spaces.  Each point lies in at most one face slab (proved below),
so the parallel pass is the simultaneous pointwise update written here;
points in no slab (interior cells, edge/corner ghosts) are untouched. -/
def boundaryUpdate (e : Extents) (tag : Fin 6 → ℤ) (vals : Fin 6 → ℚ)
    (T : Cell → ℚ) : Cell → ℚ :=
  fun p =>
    if inSlab e 0 p then faceApply tag vals T 0 p
    else if inSlab e 1 p then faceApply tag vals T 1 p
    else if inSlab e 2 p then faceApply tag vals T 2 p
    else if inSlab e 3 p then faceApply tag vals T 3 p
    else if inSlab e 4 p then faceApply tag vals T 4 p
    else if inSlab e 5 p then faceApply tag vals T 5 p
    else T p

/-- A face descriptor, as in the spec's data model. -/
inductive FaceBC where
  | dirichlet (v : ℚ)
  | neumann (v : ℚ)
  | adiabatic
deriving DecidableEq

/-- The integer dispatch tag `storeTypes` assigns to a valid descriptor. -/
def bcTag : FaceBC → ℤ
  | .dirichlet _ => 0
  | .neumann _ => 1
  | .adiabatic => 2

/-- The scalar stored in `boundary_values` for a descriptor (0 when none
is required). -/
def bcVal : FaceBC → ℚ
  | .dirichlet v => v
  | .neumann v => v
  | .adiabatic => 0

/-- The ghost value dictated by a face descriptor given the pre-update
state `T`: the fixed value for Dirichlet, the previous value plus the
offset for Neumann, the value one step inward along the face normal for
Adiabatic. -/
def dictatedValue (f : Fin 6) (T : Cell → ℚ) (p : Cell) : FaceBC → ℚ
  | .dirichlet v => v
  | .neumann v => T p + v
  | .adiabatic => T (p - facePlane f)

/-- `Boundary::storeTypes()`: map each face's type string to its integer
tag.  The `else` branch of the source constructs a `runtime_error` but
never throws it, so an unknown string is silently accepted and the tag
is left unassigned (`none`). -/
def storeTypes (types : Fin 6 → String) : Fin 6 → Option ℤ :=
  fun d =>
    if types d = "dirichlet" then some 0
    else if types d = "neumann" then some 1
    else if types d = "adiabatic" then some 2
    else none

/-- A constructed `Boundary` object. -/
structure BoundaryState where
  types : Fin 6 → String
  values : Fin 6 → ℚ
  tags : Fin 6 → Option ℤ

/-- The two-argument `Boundary` constructor (types and values): stores
both and runs `storeTypes`; it never fails. -/
def mkBoundaryWithValues (types : Fin 6 → String) (values : Fin 6 → ℚ) :
    Except String BoundaryState :=
  .ok ⟨types, values, storeTypes types⟩

/-- The one-argument `Boundary` constructor (types only): throws when any
face is "dirichlet" or "neumann", else stores zero values and runs
`storeTypes`. -/
def mkBoundaryNoValues (types : Fin 6 → String) : Except String BoundaryState :=
  if ∃ d : Fin 6, types d = "dirichlet" ∨ types d = "neumann" then
    .error "Boundary condition requires separate value input.s"
  else
    .ok ⟨types, fun _ => 0, storeTypes types⟩

/-! ## Concrete scenario data used by the claims -/

/-- A distance function that returns 1; it agrees with the Euclidean
distance on every pair of points one unit apart, in particular on all
pairs the S3 and counterexample paths traverse. -/
def distOne : Vec3 → Vec3 → ℚ := fun _ _ => 1

/-- The raw S3 scan path: a 1 s dwell at the origin with power 0, then a
traverse to (1,0,0) at 1 m/s with power 100. -/
def rawS3 : List Segment := [⟨1, (0, 0, 0), 0, 1, 0⟩, ⟨0, (1, 0, 0), 100, 1, 0⟩]

/-- The S3 beam as the `MovingBeam` constructor builds it. -/
def beamS3 : BeamState := mkBeam distOne rawS3

/-- A scan path whose only segment is an unpowered traverse: its end
time is 0 (no powered segment), so queries at the segment's own end
time are already "past the end". -/
def rawZeroPower : List Segment := [⟨0, (1, 0, 0), 0, 1, 0⟩]

/-- The zero-power beam. -/
def beamZeroPower : BeamState := mkBeam distOne rawZeroPower

/-- A scan path with a zero-duration dwell that jumps position: the
dwell at (9,9,9) shares its end time 1 with the first dwell's. -/
def rawTie : List Segment :=
  [⟨1, (0, 0, 0), 100, 1, 0⟩, ⟨1, (9, 9, 9), 100, 0, 0⟩, ⟨0, (10, 9, 9), 100, 1, 0⟩]

/-- The tied-times beam. -/
def beamTie : BeamState := mkBeam distOne rawTie

/-- Temperature environment shared by the sampler scenarios: previous
temperature 2000, current temperature 1500, liquidus 1700, `dt = 0.1`,
unit cell size, cell centers at the integer coordinates. -/
def envHot : GridEnv :=
  ⟨1700, 1 / 10, 1, fun c => ((c.1 : ℚ), (c.2.1 : ℚ), (c.2.2 : ℚ)),
   fun _ => 1500, fun _ => 2000⟩

/-- Ten distinct owned cells, each crossing the liquidus downward. -/
def cellsTen : List Cell := (List.range 10).map fun a => ((a : ℤ), 0, 0)

/-- A fresh sampler state with capacity 11 (so that a pass with 10
crossings ends with `n = 10 < 11 = capacity` and real ratio 10/11 > 0.9). -/
def stateCap11 : SolidState := ⟨0, 11, fun _ => none, fun _ => 0⟩

/-- Five crossing cells for scenario S5. -/
def cellsFive : List Cell := (List.range 5).map fun a => ((a : ℤ), 0, 0)

/-- A single crossing cell for scenario S4. -/
def cellsOne : List Cell := [((0 : ℤ), 0, 0)]

/-- A fresh sampler state with capacity 4 (scenario S5). -/
def stateCap4 : SolidState := ⟨0, 4, fun _ => none, fun _ => 0⟩

/-- A fresh sampler state with capacity 1 (scenario S4: one owned cell). -/
def stateCap1 : SolidState := ⟨0, 1, fun _ => none, fun _ => 0⟩

/-- A concrete boundary configuration: Dirichlet 5 on -x, Neumann 2 on
+x, adiabatic elsewhere. -/
def descW : Fin 6 → FaceBC :=
  fun f => if f = 0 then .dirichlet 5 else if f = 1 then .neumann 2 else .adiabatic

/-- A concrete temperature field for the boundary witness. -/
def TW : Cell → ℚ := fun _ => 7

/-! ## Theorems -/

/-- C5: the branching effective-heat-capacity factor of the host kernel
and the branchless indicator-multiplication factor of the device kernel
agree for every previous-step temperature `x`, hence both kernel
variants write the same updated temperature for the same Laplacian and
source contribution `rhs`. -/
theorem solver_heat_capacity_equiv (p : SolverParams) (x rhs : ℚ) :
    deviceDtByRhoCp p x = hostDtByRhoCp p x ∧
    deviceCellUpdate p x rhs = hostCellUpdate p x rhs := by
  have h : deviceDtByRhoCp p x = hostDtByRhoCp p x := by
    unfold deviceDtByRhoCp hostDtByRhoCp boolInd
    by_cases h1 : x ≥ p.solidus <;> by_cases h2 : x ≤ p.liquidus <;>
      simp [h1, h2]
  exact ⟨h, by unfold deviceCellUpdate hostCellUpdate; rw [h]⟩

/-- C7: constructing a `Boundary` from six face type strings without
values throws whenever any face type is dirichlet or neumann, and
succeeds when all six faces are adiabatic. -/
theorem boundary_no_values_ctor (types : Fin 6 → String) :
    ((∃ d : Fin 6, types d = "dirichlet" ∨ types d = "neumann") →
      mkBoundaryNoValues types =
        .error "Boundary condition requires separate value input.s") ∧
    ((∀ d : Fin 6, types d = "adiabatic") →
      mkBoundaryNoValues types = .ok ⟨types, fun _ => 0, storeTypes types⟩) := by
  constructor
  · intro h
    unfold mkBoundaryNoValues
    rw [if_pos h]
  · intro h
    have hno : ¬ ∃ d : Fin 6, types d = "dirichlet" ∨ types d = "neumann" := by
      rintro ⟨d, hd | hd⟩ <;> rw [h d] at hd <;> exact absurd hd (by decide)
    unfold mkBoundaryNoValues
    rw [if_neg hno]

/-- C7 witness: the all-adiabatic construction succeeds and a
construction with a dirichlet face without a value fails. -/
theorem boundary_no_values_ctor_witness :
    (mkBoundaryNoValues (fun _ => "adiabatic") =
      .ok ⟨fun _ => "adiabatic", fun _ => 0, storeTypes fun _ => "adiabatic"⟩) ∧
    (mkBoundaryNoValues (fun _ => "dirichlet") =
      .error "Boundary condition requires separate value input.s") :=
  ⟨(boundary_no_values_ctor (fun _ => "adiabatic")).2 (fun _ => rfl),
   (boundary_no_values_ctor (fun _ => "dirichlet")).1 ⟨0, Or.inl rfl⟩⟩

/-- C10: a face type string outside dirichlet/neumann/adiabatic does not
make construction fail — `storeTypes` never throws the error it
constructs — and that face's integer dispatch tag is left unassigned. -/
theorem storeTypes_invalid_silent (types : Fin 6 → String) (values : Fin 6 → ℚ)
    (d : Fin 6) (h1 : types d ≠ "dirichlet") (h2 : types d ≠ "neumann")
    (h3 : types d ≠ "adiabatic") :
    mkBoundaryWithValues types values = .ok ⟨types, values, storeTypes types⟩ ∧
    storeTypes types d = none := by
  refine ⟨rfl, ?_⟩
  unfold storeTypes
  rw [if_neg h1, if_neg h2, if_neg h3]

/-- C10 witness: the all-"bogus" boundary is accepted with every tag
unassigned. -/
theorem storeTypes_invalid_silent_witness :
    ((fun _ : Fin 6 => "bogus") 0 ≠ "dirichlet" ∧
     (fun _ : Fin 6 => "bogus") 0 ≠ "neumann" ∧
     (fun _ : Fin 6 => "bogus") 0 ≠ "adiabatic") ∧
    (mkBoundaryWithValues (fun _ => "bogus") (fun _ => 0) =
        .ok ⟨fun _ => "bogus", fun _ => 0, storeTypes fun _ => "bogus"⟩ ∧
      storeTypes (fun _ => "bogus") 0 = none) :=
  ⟨⟨by decide, by decide, by decide⟩,
   storeTypes_invalid_silent (fun _ => "bogus") (fun _ => 0) 0
     (by decide) (by decide) (by decide)⟩

/-- C9: the public accessor `endTime()` returns the stored double end
time converted to `int` (truncated toward zero); a path whose last
powered segment ends at 1.5 s reports end time 1 even though `move`
itself compares against the exact value 1.5 (power still on at
`t = 1.4`, off at `t = 1.6`). -/
theorem endTime_accessor_truncates :
    (∀ b : BeamState, endTimeAccessor b = ratTruncToInt b.endTime) ∧
    ((mkBeam distOne [⟨1, (0, 0, 0), 100, 3 / 2, 0⟩]).endTime = 3 / 2 ∧
     endTimeAccessor (mkBeam distOne [⟨1, (0, 0, 0), 100, 3 / 2, 0⟩]) = 1 ∧
     (move (mkBeam distOne [⟨1, (0, 0, 0), 100, 3 / 2, 0⟩]) (7 / 5)).power = 100 ∧
     (move (mkBeam distOne [⟨1, (0, 0, 0), 100, 3 / 2, 0⟩]) (8 / 5)).power = 0) := by
  refine ⟨fun _ => rfl, ?_, ?_, ?_, ?_⟩ <;> decide

/-- C1: at the failing input (fresh sampler, capacity 11, one pass with
10 crossings) the claim's premise holds — `n = 10 < 11 = capacity` and
the real ratio `10 / 11` exceeds 0.9 — yet `update` leaves the capacity
at 11 instead of reserving `2·n = 20` rows: the source compares the
C++ integer quotient `new_count / capacity`, which is 0, against 0.9,
so the reserve branch never fires. -/
theorem update_reserve_branch_dead :
    ((10 : ℚ) / 11 > 9 / 10) ∧
    (update envHot 1 cellsTen stateCap11).count = 10 ∧
    (update envHot 1 cellsTen stateCap11).count <
      (update envHot 1 cellsTen stateCap11).capacity ∧
    (update envHot 1 cellsTen stateCap11).capacity = 11 ∧
    (update envHot 1 cellsTen stateCap11).capacity ≠ 2 * 10 := by
  refine ⟨by norm_num, ?_, ?_, ?_, ?_⟩ <;> decide

/-- A cell satisfying the solidification condition does not satisfy the
melt condition (the two temperature tests are mutually exclusive). -/
lemma solidify_not_melt (env : GridEnv) (c : Cell) (h : isSolidify env c = true) :
    isMelt env c = false := by
  unfold isSolidify at h
  unfold isMelt
  rcases (Bool.and_eq_true _ _).mp h with ⟨h1, _⟩
  have hfalse : decide (env.liquidus < env.T c) = false := by
    simp only [decide_eq_false_iff_not, not_lt]
    exact of_decide_eq_true h1
  rw [hfalse, Bool.false_and]

/-- On a solidification crossing with room in the buffer, `processCell`
increments the counter and writes the event row at the pre-increment
index. -/
lemma processCell_solidify (env : GridEnv) (time : ℚ) (s : SolidState) (c : Cell)
    (hc : isSolidify env c = true) (hlt : s.count < s.capacity) :
    processCell env time s c =
      { count := s.count + 1, capacity := s.capacity,
        buffer := Function.update s.buffer s.count (some (mkRecord env time s.tm c)),
        tm := s.tm } := by
  unfold processCell
  rw [if_pos hc, if_pos hlt]

/-- On a melt crossing, `processCell` only writes the melt time. -/
lemma processCell_melt (env : GridEnv) (time : ℚ) (s : SolidState) (c : Cell)
    (hc : isSolidify env c = false) (hm : isMelt env c = true) :
    processCell env time s c = { s with tm := Function.update s.tm c (crossTime env time c) } := by
  unfold processCell
  rw [if_neg (by simp [hc]), if_pos hm]

/-- With no crossing, `processCell` is the identity. -/
lemma processCell_none (env : GridEnv) (time : ℚ) (s : SolidState) (c : Cell)
    (hc : isSolidify env c = false) (hm : isMelt env c = false) :
    processCell env time s c = s := by
  unfold processCell
  rw [if_neg (by simp [hc]), if_neg (by simp [hm])]

/-- The kernel body never changes the capacity. -/
lemma processCell_capacity (env : GridEnv) (time : ℚ) (s : SolidState) (c : Cell) :
    (processCell env time s c).capacity = s.capacity := by
  unfold processCell
  by_cases hc : isSolidify env c = true <;> by_cases hm : isMelt env c = true <;>
    by_cases hlt : s.count < s.capacity <;> simp [hc, hm, hlt]

/-- The kernel body increments the counter exactly on solidification
crossings (also when the write is skipped for lack of room). -/
lemma processCell_count (env : GridEnv) (time : ℚ) (s : SolidState) (c : Cell) :
    (processCell env time s c).count =
      s.count + (if isSolidify env c = true then 1 else 0) := by
  unfold processCell
  by_cases hc : isSolidify env c = true <;> by_cases hm : isMelt env c = true <;>
    by_cases hlt : s.count < s.capacity <;> simp [hc, hm, hlt]

/-- The kernel body leaves the melt time of every non-melt cell alone. -/
lemma processCell_tm_of_not_melt (env : GridEnv) (time : ℚ) (s : SolidState) (c cx : Cell)
    (h : isMelt env cx = false) :
    (processCell env time s c).tm cx = s.tm cx := by
  have hne : isMelt env c = true → cx ≠ c := by
    intro hm hEq
    rw [hEq] at h
    rw [h] at hm
    exact Bool.false_ne_true hm
  unfold processCell
  by_cases hc : isSolidify env c = true
  · by_cases hlt : s.count < s.capacity <;> simp [hc, hlt]
  · by_cases hm : isMelt env c = true
    · simp [hc, hm, Function.update_noteq (hne hm)]
    · simp [hc, hm]

/-- A full pass adds one count per solidification crossing of the cell
list, with or without room in the buffer. -/
lemma updateEvents_count (env : GridEnv) (time : ℚ) (cells : List Cell) (s : SolidState) :
    (updateEvents env time cells s).count = s.count + (crossCells env cells).length := by
  induction cells generalizing s with
  | nil => simp [updateEvents, crossCells]
  | cons c rest ih =>
    have hstep : updateEvents env time (c :: rest) s =
        updateEvents env time rest (processCell env time s c) := rfl
    rw [hstep, ih, processCell_count]
    by_cases hc : isSolidify env c = true <;>
      simp [crossCells, List.filter_cons, hc] <;> omega

/-- A full pass never changes the capacity. -/
lemma updateEvents_capacity (env : GridEnv) (time : ℚ) (cells : List Cell) (s : SolidState) :
    (updateEvents env time cells s).capacity = s.capacity := by
  induction cells generalizing s with
  | nil => rfl
  | cons c rest ih =>
    have hstep : updateEvents env time (c :: rest) s =
        updateEvents env time rest (processCell env time s c) := rfl
    rw [hstep, ih, processCell_capacity]

/-- A full pass leaves the melt time of every non-melt cell alone. -/
lemma updateEvents_tm_of_not_melt (env : GridEnv) (time : ℚ) (cells : List Cell)
    (s : SolidState) (cx : Cell) (h : isMelt env cx = false) :
    (updateEvents env time cells s).tm cx = s.tm cx := by
  induction cells generalizing s with
  | nil => rfl
  | cons c rest ih =>
    have hstep : updateEvents env time (c :: rest) s =
        updateEvents env time rest (processCell env time s c) := rfl
    rw [hstep, ih, processCell_tm_of_not_melt env time s c cx h]

/-- The event row depends on the melt field only through its value at
the recorded cell. -/
lemma mkRecord_tm_congr (env : GridEnv) (time : ℚ) (tm1 tm2 : Cell → ℚ) (c : Cell)
    (h : tm1 c = tm2 c) : mkRecord env time tm1 c = mkRecord env time tm2 c := by
  unfold mkRecord
  rw [h]

/-- A member of the crossing list satisfies the solidification condition. -/
lemma crossCells_solidify (env : GridEnv) (cells : List Cell) (d : Cell)
    (hd : d ∈ crossCells env cells) : isSolidify env d = true :=
  (List.mem_filter.mp hd).2

/-- An in-bounds `getD` yields a member of the list. -/
lemma list_getD_mem {α : Type} (l : List α) (i : ℕ) (d : α) (h : i < l.length) :
    l.getD i d ∈ l := by
  induction l generalizing i with
  | nil => exact absurd h (by simp)
  | cons a as ih =>
    rcases i with _ | i2
    · exact List.mem_cons_self a as
    · exact List.mem_cons_of_mem a (ih i2 (by simpa using h))

/-- Core characterization of one pass when the buffer has room for all
crossings: previously written rows are untouched, and row
`count + i` receives the record of the i-th crossing cell (in iteration
order), computed from the pre-pass melt field. -/
lemma updateEvents_records (env : GridEnv) (time : ℚ) (cells : List Cell) (s : SolidState)
    (hcap : s.count + (crossCells env cells).length ≤ s.capacity) :
    (∀ j, j < s.count → (updateEvents env time cells s).buffer j = s.buffer j) ∧
    (∀ i, i < (crossCells env cells).length →
      (updateEvents env time cells s).buffer (s.count + i) =
        some (mkRecord env time s.tm ((crossCells env cells).getD i (0, 0, 0)))) := by
  induction cells generalizing s with
  | nil =>
    refine ⟨fun j _ => rfl, fun i hi => absurd hi ?_⟩
    simp [crossCells]
  | cons c rest ih =>
    have hstep : updateEvents env time (c :: rest) s =
        updateEvents env time rest (processCell env time s c) := rfl
    by_cases hc : isSolidify env c = true
    · have hcr : crossCells env (c :: rest) = c :: crossCells env rest := by
        simp [crossCells, List.filter_cons, hc]
      rw [hcr] at hcap
      simp only [List.length_cons] at hcap
      have hlt : s.count < s.capacity := by omega
      have hcount : (processCell env time s c).count = s.count + 1 := by
        rw [processCell_count, if_pos hc]
      have hcapEq : (processCell env time s c).capacity = s.capacity :=
        processCell_capacity env time s c
      have hbuf : (processCell env time s c).buffer =
          Function.update s.buffer s.count (some (mkRecord env time s.tm c)) := by
        rw [processCell_solidify env time s c hc hlt]
      have htm : (processCell env time s c).tm = s.tm := by
        rw [processCell_solidify env time s c hc hlt]
      obtain ⟨ihA, ihB⟩ := ih (processCell env time s c) (by rw [hcount, hcapEq]; omega)
      rw [hstep]
      constructor
      · intro j hj
        rw [ihA j (by rw [hcount]; omega), hbuf]
        exact Function.update_noteq (by omega) _ _
      · intro i hi
        rcases i with _ | i2
        · have hidx := ihA s.count (by rw [hcount]; omega)
          rw [Nat.add_zero, hidx, hbuf, Function.update_same, hcr]
          rfl
        · rw [hcr] at hi
          have hi2 : i2 < (crossCells env rest).length := by simpa using hi
          have hB := ihB i2 hi2
          rw [hcount, htm] at hB
          rw [show s.count + (i2 + 1) = s.count + 1 + i2 from by omega, hB, hcr]
          rfl
    · have hcFalse : isSolidify env c = false := Bool.eq_false_iff.mpr hc
      have hcr : crossCells env (c :: rest) = crossCells env rest := by
        simp [crossCells, List.filter_cons, hcFalse]
      rw [hcr] at hcap
      by_cases hm : isMelt env c = true
      · have hpc := processCell_melt env time s c hcFalse hm
        have hcount : (processCell env time s c).count = s.count := by rw [hpc]
        have hcapEq : (processCell env time s c).capacity = s.capacity := by rw [hpc]
        have hbuf : (processCell env time s c).buffer = s.buffer := by rw [hpc]
        have htm : (processCell env time s c).tm =
            Function.update s.tm c (crossTime env time c) := by rw [hpc]
        obtain ⟨ihA, ihB⟩ := ih (processCell env time s c)
          (by rw [hcount, hcapEq]; exact hcap)
        rw [hstep]
        constructor
        · intro j hj
          rw [ihA j (by rw [hcount]; omega), hbuf]
        · intro i hi
          rw [hcr] at hi
          have hB := ihB i hi
          rw [hcount, htm] at hB
          rw [hB, hcr]
          have hd : (crossCells env rest).getD i (0, 0, 0) ∈ crossCells env rest :=
            list_getD_mem _ i _ hi
          have hdne : (crossCells env rest).getD i (0, 0, 0) ≠ c := by
            intro hEq
            have hsol := crossCells_solidify env rest _ hd
            rw [hEq] at hsol
            rw [solidify_not_melt env c hsol] at hm
            exact Bool.false_ne_true hm
          have htm2 : Function.update s.tm c (crossTime env time c)
                ((crossCells env rest).getD i (0, 0, 0)) =
              s.tm ((crossCells env rest).getD i (0, 0, 0)) :=
            Function.update_noteq hdne _ _
          rw [mkRecord_tm_congr env time _ _ _ htm2]
      · have hmFalse : isMelt env c = false := Bool.eq_false_iff.mpr hm
        have hpc := processCell_none env time s c hcFalse hmFalse
        rw [hstep, hpc, hcr]
        exact ih s hcap

/-- C4: for every cell of a pass whose current temperature is at or
below liquidus while the previous temperature is above it — and room in
the buffer — `updateEvents` appends exactly one event per such cell,
whose solidification time (column 4) is `t - m·dt` with
`m = clamp((T - T_L)/(T - T0), 0, 1)` and whose cooling rate (column 5)
is `(T0 - T)/dt`. -/
theorem updateEvents_appends_events (env : GridEnv) (time : ℚ) (cells : List Cell)
    (s : SolidState) (hcap : s.count + (crossCells env cells).length ≤ s.capacity) :
    (updateEvents env time cells s).count = s.count + (crossCells env cells).length ∧
    (∀ i, i < (crossCells env cells).length →
      ∃ r : EventRecord,
        (updateEvents env time cells s).buffer (s.count + i) = some r ∧
        r.ts = time -
          fmin (fmax ((env.T ((crossCells env cells).getD i (0, 0, 0)) - env.liquidus) /
              (env.T ((crossCells env cells).getD i (0, 0, 0)) -
                env.T0 ((crossCells env cells).getD i (0, 0, 0)))) 0) 1 * env.dt ∧
        r.R = (env.T0 ((crossCells env cells).getD i (0, 0, 0)) -
            env.T ((crossCells env cells).getD i (0, 0, 0))) / env.dt) := by
  obtain ⟨_, hrec⟩ := updateEvents_records env time cells s hcap
  refine ⟨updateEvents_count env time cells s, fun i hi => ?_⟩
  exact ⟨mkRecord env time s.tm ((crossCells env cells).getD i (0, 0, 0)), hrec i hi, rfl, rfl⟩

/-- C4 witness (scenario S4): one cell with T0 = 2000, T = 1500,
liquidus 1700 at t = 1, dt = 0.1 appends exactly one event with
ts = 1 - 0.4·0.1 = 0.96 and R = 500/0.1 = 5000. -/
theorem updateEvents_appends_events_witness :
    (updateEvents envHot 1 cellsOne stateCap1).count = 1 ∧
    (∃ r : EventRecord,
      (updateEvents envHot 1 cellsOne stateCap1).buffer 0 = some r ∧
      r.ts = 24 / 25 ∧ r.R = 5000) := by
  obtain ⟨hcount, hrec⟩ :=
    updateEvents_appends_events envHot 1 cellsOne stateCap1 (by decide)
  obtain ⟨r, hb, hts, hR⟩ := hrec 0 (by decide)
  exact ⟨hcount.trans (by decide), r, hb, hts.trans (by decide), hR.trans (by decide)⟩

/-- C3: from a fresh sampler, one `update` pass that detects K crossings
ends with `n = K` and the bulk read-out of exactly K rows for every
initial capacity (at least 1), rows `[0, K)` holding the records of the
K crossing cells; on overflow (`K ≥ capacity`) the buffer is resized to
`2·K` rows, the counter restored, and the pass re-run, so the final
capacity is `2·K`. -/
theorem update_adaptive_capacity (env : GridEnv) (time : ℚ) (cells : List Cell)
    (s : SolidState) (h0 : s.count = 0) :
    (update env time cells s).count = (crossCells env cells).length ∧
    (getData (update env time cells s)).length = (crossCells env cells).length ∧
    (∀ i, i < (crossCells env cells).length →
      (update env time cells s).buffer i =
        some (mkRecord env time s.tm ((crossCells env cells).getD i (0, 0, 0)))) ∧
    (s.capacity ≤ (crossCells env cells).length →
      (update env time cells s).capacity = 2 * (crossCells env cells).length) := by
  have hc1 := updateEvents_count env time cells s
  have hcap := updateEvents_capacity env time cells s
  rw [h0, Nat.zero_add] at hc1
  set K := (crossCells env cells).length with hK
  unfold update
  by_cases hover : (updateEvents env time cells s).count ≥ (updateEvents env time cells s).capacity
  · rw [if_pos hover]
    set s2 : SolidState :=
      { updateEvents env time cells s with
        capacity := 2 * (updateEvents env time cells s).count, count := s.count } with hs2
    have hs2count : s2.count = 0 := h0
    have hs2cap : s2.capacity = 2 * K := by
      simp only [hs2, hc1]
    have hs2tm : ∀ cx, isMelt env cx = false → s2.tm cx = s.tm cx := by
      intro cx hcx
      have : s2.tm cx = (updateEvents env time cells s).tm cx := rfl
      rw [this, updateEvents_tm_of_not_melt env time cells s cx hcx]
    have hcap2 : s2.count + K ≤ s2.capacity := by
      rw [hs2count, hs2cap]
      omega
    obtain ⟨_, hrec⟩ := updateEvents_records env time cells s2 hcap2
    have hcount2 := updateEvents_count env time cells s2
    rw [hs2count, Nat.zero_add] at hcount2
    refine ⟨hcount2, ?_, ?_, fun _ => ?_⟩
    · simp [getData, hcount2]
    · intro i hi
      have hb := hrec i hi
      rw [hs2count, Nat.zero_add] at hb
      rw [hb]
      have hd : (crossCells env cells).getD i (0, 0, 0) ∈ crossCells env cells :=
        list_getD_mem _ i _ hi
      have hsol := crossCells_solidify env cells _ hd
      have htm := hs2tm _ (solidify_not_melt env _ hsol)
      rw [mkRecord_tm_congr env time _ _ _ htm]
    · rw [updateEvents_capacity env time cells s2, hs2cap]
  · rw [if_neg hover]
    have hlt : K < s.capacity := by
      rw [hc1, hcap] at hover
      omega
    have hdiv : ((updateEvents env time cells s).count / (updateEvents env time cells s).capacity : ℕ) = 0 := by
      rw [hc1, hcap]
      exact Nat.div_eq_of_lt hlt
    rw [if_neg (by rw [hdiv]; norm_num)]
    have hcapOK : s.count + K ≤ s.capacity := by
      rw [h0]
      omega
    obtain ⟨_, hrec⟩ := updateEvents_records env time cells s hcapOK
    refine ⟨hc1, by simp [getData, hc1], ?_, fun hcon => absurd hcon (by omega)⟩
    intro i hi
    have hb := hrec i hi
    rw [h0, Nat.zero_add] at hb
    exact hb

/-- C3 witness (scenario S5): initial capacity 4 and 5 crossings give
`n = 5`, a 5-row read-out, all 5 records in rows [0,5), and capacity
10 after the resize-and-retry. -/
theorem update_adaptive_capacity_witness :
    ((update envHot 1 cellsFive stateCap4).count = 5 ∧
     (update envHot 1 cellsFive stateCap4).capacity = 10) ∧
    ((update envHot 1 cellsFive stateCap4).count = (crossCells envHot cellsFive).length ∧
     (getData (update envHot 1 cellsFive stateCap4)).length = (crossCells envHot cellsFive).length ∧
     (∀ i, i < (crossCells envHot cellsFive).length →
       (update envHot 1 cellsFive stateCap4).buffer i =
         some (mkRecord envHot 1 stateCap4.tm ((crossCells envHot cellsFive).getD i (0, 0, 0)))) ∧
     (stateCap4.capacity ≤ (crossCells envHot cellsFive).length →
       (update envHot 1 cellsFive stateCap4).capacity = 2 * (crossCells envHot cellsFive).length)) :=
  ⟨⟨by decide, by decide⟩,
   update_adaptive_capacity envHot 1 cellsFive stateCap4 rfl⟩

/-- The six face ghost slabs are pairwise disjoint: a point lies in at
most one `boundaryIndexSpace`, so the fused kernel's per-face writes
never collide. -/
lemma inSlab_unique (e : Extents) (f g : Fin 6) (p : Cell)
    (hf : inSlab e f p) (hg : inSlab e g p) : f = g := by
  by_cases hax : axisOf f = axisOf g
  · have hco : slabCoord e f = slabCoord e g := by
      rw [← hf.1, hax, hg.1]
    have hv : f.val / 2 = g.val / 2 := by
      have h := congrArg Fin.val hax
      simpa [axisOf] using h
    by_cases h2 : f.val % 2 = 0 <;> by_cases h3 : g.val % 2 = 0
    · exact Fin.ext (by omega)
    · exfalso
      unfold slabCoord at hco
      rw [if_pos h2, if_neg h3] at hco
      omega
    · exfalso
      unfold slabCoord at hco
      rw [if_neg h2, if_pos h3] at hco
      omega
    · exact Fin.ext (by omega)
  · exfalso
    obtain ⟨hle, hlt⟩ := hf.2 (axisOf g) (fun h => hax h.symm)
    rw [hg.1] at hle hlt
    unfold slabCoord at hle hlt
    by_cases h3 : g.val % 2 = 0
    · rw [if_pos h3] at hle
      omega
    · rw [if_neg h3] at hlt
      omega

/-- A face ghost slab contains no owned cell. -/
lemma inSlab_not_owned (e : Extents) (f : Fin 6) (p : Cell)
    (hf : inSlab e f p) (ho : ownedCell e p) : False := by
  obtain ⟨hle, hlt⟩ := ho (axisOf f)
  rw [hf.1] at hle hlt
  unfold slabCoord at hle hlt
  by_cases h2 : f.val % 2 = 0
  · rw [if_pos h2] at hle
    omega
  · rw [if_neg h2] at hlt
    omega

/-- On a point of face `f`'s ghost slab, the fused update applies
exactly face `f`'s kernel body. -/
lemma boundaryUpdate_eq_faceApply (e : Extents) (tag : Fin 6 → ℤ) (vals : Fin 6 → ℚ)
    (T : Cell → ℚ) (f : Fin 6) (p : Cell) (hf : inSlab e f p) :
    boundaryUpdate e tag vals T p = faceApply tag vals T f p := by
  unfold boundaryUpdate
  by_cases h0 : inSlab e 0 p
  · obtain rfl := inSlab_unique e f 0 p hf h0
    rw [if_pos h0]
  · rw [if_neg h0]
    by_cases h1 : inSlab e 1 p
    · obtain rfl := inSlab_unique e f 1 p hf h1
      rw [if_pos h1]
    · rw [if_neg h1]
      by_cases h2 : inSlab e 2 p
      · obtain rfl := inSlab_unique e f 2 p hf h2
        rw [if_pos h2]
      · rw [if_neg h2]
        by_cases h3 : inSlab e 3 p
        · obtain rfl := inSlab_unique e f 3 p hf h3
          rw [if_pos h3]
        · rw [if_neg h3]
          by_cases h4 : inSlab e 4 p
          · obtain rfl := inSlab_unique e f 4 p hf h4
            rw [if_pos h4]
          · rw [if_neg h4]
            by_cases h5 : inSlab e 5 p
            · obtain rfl := inSlab_unique e f 5 p hf h5
              rw [if_pos h5]
            · exfalso
              fin_cases f
              · exact h0 hf
              · exact h1 hf
              · exact h2 hf
              · exact h3 hf
              · exact h4 hf
              · exact h5 hf

/-- C6: after `Boundary::update` on the temperature field, every ghost
cell of each of the six face slabs holds the value dictated by that
face's descriptor given the pre-update state — the fixed value for
Dirichlet, its previous value plus the offset for Neumann, the value of
the cell one step inward along the face normal for Adiabatic — and no
owned interior cell is modified. -/
theorem boundary_update_contract (e : Extents) (desc : Fin 6 → FaceBC) (T : Cell → ℚ) :
    (∀ (f : Fin 6) (p : Cell), inSlab e f p →
      boundaryUpdate e (fun g => bcTag (desc g)) (fun g => bcVal (desc g)) T p =
        dictatedValue f T p (desc f)) ∧
    (∀ p : Cell, ownedCell e p →
      boundaryUpdate e (fun g => bcTag (desc g)) (fun g => bcVal (desc g)) T p = T p) := by
  constructor
  · intro f p hf
    rw [boundaryUpdate_eq_faceApply e _ _ T f p hf]
    cases hd : desc f <;> simp [faceApply, dictatedValue, bcTag, bcVal, hd]
  · intro p hp
    have hns : ∀ g : Fin 6, ¬ inSlab e g p := fun g hg => inSlab_not_owned e g p hg hp
    unfold boundaryUpdate
    rw [if_neg (hns 0), if_neg (hns 1), if_neg (hns 2), if_neg (hns 3),
        if_neg (hns 4), if_neg (hns 5)]

/-- C6 witness: on the 1×1×1 block with Dirichlet 5 on -x, the ghost
(-1,0,0) receives 5 and the owned cell (0,0,0) keeps its value. -/
theorem boundary_update_contract_witness :
    inSlab ⟨1, 1, 1⟩ 0 ((-1 : ℤ), 0, 0) ∧ ownedCell ⟨1, 1, 1⟩ ((0 : ℤ), 0, 0) ∧
    boundaryUpdate ⟨1, 1, 1⟩ (fun g => bcTag (descW g)) (fun g => bcVal (descW g)) TW
      ((-1 : ℤ), 0, 0) = dictatedValue 0 TW ((-1 : ℤ), 0, 0) (descW 0) ∧
    boundaryUpdate ⟨1, 1, 1⟩ (fun g => bcTag (descW g)) (fun g => bcVal (descW g)) TW
      ((0 : ℤ), 0, 0) = TW ((0 : ℤ), 0, 0) :=
  ⟨by decide, by decide,
   (boundary_update_contract ⟨1, 1, 1⟩ descW TW).1 0 ((-1 : ℤ), 0, 0) (by decide),
   (boundary_update_contract ⟨1, 1, 1⟩ descW TW).2 ((0 : ℤ), 0, 0) (by decide)⟩

/-- C2 counterexample: in scenario S3, after the queries at t = 0.5,
1.5, 3.0 the final position is (0.5, 0, 0) — the value retained from
the t = 1.5 query — not (1, 0, 0) as the claim states (the power is 0
as claimed). -/
theorem s3_final_position_stays :
    (move (move (move beamS3 (1 / 2)) (3 / 2)) 3).position = (1 / 2, 0, 0) ∧
    (move (move (move beamS3 (1 / 2)) (3 / 2)) 3).position ≠ (1, 0, 0) ∧
    (move (move (move beamS3 (1 / 2)) (3 / 2)) 3).power = 0 := by
  refine ⟨?_, ?_, ?_⟩ <;> decide

/-- C2 amended: a query more than `eps` past the stored end time zeroes
the power and returns immediately, leaving position (and index)
untouched; in scenario S3 the queries at t = 0.5, 1.5 give the spec's
positions and powers, and the query at t = 3.0 gives power 0 with the
position left at (0.5, 0, 0), its value from the t = 1.5 query. -/
theorem move_past_end_spec (dist : Vec3 → Vec3 → ℚ)
    (hdist : dist (0, 0, 0) (1, 0, 0) = 1) :
    (∀ (b : BeamState) (t : ℚ), t - b.endTime > eps →
        move b t = { b with power := 0 }) ∧
    ((move (mkBeam dist rawS3) (1 / 2)).position = (0, 0, 0) ∧
     (move (mkBeam dist rawS3) (1 / 2)).power = 0 ∧
     (move (move (mkBeam dist rawS3) (1 / 2)) (3 / 2)).position = (1 / 2, 0, 0) ∧
     (move (move (mkBeam dist rawS3) (1 / 2)) (3 / 2)).power = 100 ∧
     (move (move (move (mkBeam dist rawS3) (1 / 2)) (3 / 2)) 3).position = (1 / 2, 0, 0) ∧
     (move (move (move (mkBeam dist rawS3) (1 / 2)) (3 / 2)) 3).power = 0) := by
  have hload : loadPath dist rawS3 = loadPath distOne rawS3 := by
    unfold loadPath rawS3 distOne
    norm_num [setTimesGo, hdist, -Prod.mk_zero_zero]
  have hbeam : mkBeam dist rawS3 = beamS3 := by
    unfold beamS3 mkBeam
    rw [hload]
  constructor
  · intro b t h
    unfold move
    rw [if_pos h]
  · rw [hbeam]
    refine ⟨?_, ?_, ?_, ?_, ?_, ?_⟩ <;> decide

/-- C2 amended witness: the S3 facts instantiated with the unit distance
function, which agrees with the Euclidean distance on the S3 traverse. -/
theorem move_past_end_spec_witness :
    distOne (0, 0, 0) (1, 0, 0) = 1 ∧
    ((∀ (b : BeamState) (t : ℚ), t - b.endTime > eps →
        move b t = { b with power := 0 }) ∧
     ((move (mkBeam distOne rawS3) (1 / 2)).position = (0, 0, 0) ∧
      (move (mkBeam distOne rawS3) (1 / 2)).power = 0 ∧
      (move (move (mkBeam distOne rawS3) (1 / 2)) (3 / 2)).position = (1 / 2, 0, 0) ∧
      (move (move (mkBeam distOne rawS3) (1 / 2)) (3 / 2)).power = 100 ∧
      (move (move (move (mkBeam distOne rawS3) (1 / 2)) (3 / 2)) 3).position = (1 / 2, 0, 0) ∧
      (move (move (move (mkBeam distOne rawS3) (1 / 2)) (3 / 2)) 3).power = 0)) :=
  ⟨rfl, move_past_end_spec distOne rfl⟩

/-- Loaded paths have non-decreasing segment end times. -/
lemma loaded_time_mono (path : List Segment) (hl : loadedPath path) :
    ∀ a b : ℕ, a ≤ b → b < path.length → (seg path a).time ≤ (seg path b).time := by
  intro a b
  induction b with
  | zero =>
    intro hab _
    have ha : a = 0 := by omega
    rw [ha]
  | succ b ih =>
    intro hab hb
    rcases Nat.eq_or_lt_of_le hab with rfl | hlt
    · exact le_refl _
    · have hstep := (hl.2.2 (b + 1) hb (by omega)).2.2
      exact le_trans (ih (by omega) (by omega)) hstep

/-- The backward walk never moves forward. -/
lemma backWalk_le (path : List Segment) (t : ℚ) (s : ℕ) : backWalk path t s ≤ s := by
  induction s with
  | zero => simp [backWalk]
  | succ s ih =>
    simp only [backWalk]
    by_cases h : (seg path (s + 1)).time > t
    · rw [if_pos h]
      omega
    · rw [if_neg h]

/-- The backward walk stops at index 0 or at a segment no later than
the query time. -/
lemma backWalk_stop (path : List Segment) (t : ℚ) (s : ℕ) :
    backWalk path t s = 0 ∨ (seg path (backWalk path t s)).time ≤ t := by
  induction s with
  | zero => left; simp [backWalk]
  | succ s ih =>
    simp only [backWalk]
    by_cases h : (seg path (s + 1)).time > t
    · rw [if_pos h]
      exact ih
    · rw [if_neg h]
      right
      exact not_lt.mp h

/-- The loop invariant of the forward walk: starting at `i` with enough
fuel, the walk stays in `[i, n]`, stops only at `n` or at a segment
time at or past `t`, and every index it passed has time strictly below
`t`. -/
lemma fwdWalk_spec (path : List Segment) (t : ℚ) (n : ℕ) :
    ∀ fuel i, n ≤ i + fuel →
      i ≤ fwdWalk path t n i fuel ∧
      (i ≤ n → fwdWalk path t n i fuel ≤ n) ∧
      (fwdWalk path t n i fuel < n → t ≤ (seg path (fwdWalk path t n i fuel)).time) ∧
      (∀ k, i ≤ k → k < fwdWalk path t n i fuel → (seg path k).time < t) := by
  intro fuel
  induction fuel with
  | zero =>
    intro i hfuel
    simp only [fwdWalk]
    exact ⟨le_refl i, fun h => h, fun h => absurd h (by omega),
      fun k hk1 hk2 => absurd hk2 (by omega)⟩
  | succ fuel ih =>
    intro i hfuel
    simp only [fwdWalk]
    by_cases hcond : i < n ∧ (seg path i).time < t
    · rw [if_pos hcond]
      obtain ⟨ha, hb, hc, hd⟩ := ih (i + 1) (by omega)
      refine ⟨by omega, fun _ => hb (by omega), hc, ?_⟩
      intro k hk1 hk2
      rcases Nat.eq_or_lt_of_le hk1 with rfl | hlt
      · exact hcond.2
      · exact hd k (by omega) hk2
    · rw [if_neg hcond]
      refine ⟨le_refl i, fun h => h, fun h => ?_,
        fun k hk1 hk2 => absurd hk2 (by omega)⟩
      exact not_lt.mp (fun hlt => hcond ⟨h, hlt⟩)

/-- The zero-dwell skip loop does not move when its condition fails at
the current index. -/
lemma skipWalk_stop (path : List Segment) (n i fuel : ℕ)
    (h : ¬(i < n ∧ (seg path i).mode = 1 ∧ (seg path i).parameter = 0)) :
    skipWalk path n i fuel = i := by
  cases fuel with
  | zero => rfl
  | succ fuel =>
    simp only [skipWalk]
    rw [if_neg h]

/-- Characterization of `findIndex`: whatever the cached start index,
when `time[j-1] < t ≤ time[j]`, the times are non-decreasing, segment
`j` is not skippable, and no later segment ties with `time[j]` (or
`j = n`), the walk lands exactly on `j`. -/
lemma findIndex_eq_of (path : List Segment) (t : ℚ) (j s : ℕ)
    (hmono : ∀ a b : ℕ, a ≤ b → b < path.length → (seg path a).time ≤ (seg path b).time)
    (hj1 : 1 ≤ j) (hjn : j ≤ pathN path) (hs : s ≤ pathN path)
    (hlow : (seg path (j - 1)).time < t) (hhigh : t ≤ (seg path j).time)
    (hskip : ¬((seg path j).mode = 1 ∧ (seg path j).parameter = 0) ∨ j = pathN path)
    (htie : j = pathN path ∨ (seg path j).time < (seg path (j + 1)).time) :
    findIndex path s t = j := by
  have hlen : j < path.length := by
    unfold pathN at hjn
    omega
  have hlen2 : pathN path < path.length := by
    unfold pathN at hjn ⊢
    omega
  have hi1le : backWalk path t s ≤ s := backWalk_le path t s
  have hi1j : backWalk path t s ≤ j := by
    by_contra hgt
    push_neg at hgt
    rcases backWalk_stop path t s with h0 | hle
    · omega
    · rcases htie with rfl | hlt
      · omega
      · have h2 : (seg path (j + 1)).time ≤ (seg path (backWalk path t s)).time :=
          hmono (j + 1) _ (by omega) (by omega)
        linarith
  obtain ⟨hA, hB, hC, hD⟩ :=
    fwdWalk_spec path t (pathN path) (pathN path) (backWalk path t s) (by omega)
  have hrj : fwdWalk path t (pathN path) (backWalk path t s) (pathN path) = j := by
    have hrle : fwdWalk path t (pathN path) (backWalk path t s) (pathN path) ≤ j := by
      by_contra hgt2
      push_neg at hgt2
      exact absurd (hD j hi1j hgt2) (not_lt.mpr hhigh)
    have hrge : j ≤ fwdWalk path t (pathN path) (backWalk path t s) (pathN path) := by
      by_contra hgt3
      push_neg at hgt3
      have hrn : fwdWalk path t (pathN path) (backWalk path t s) (pathN path) < pathN path := by
        omega
      have htle := hC hrn
      have hle2 : (seg path (fwdWalk path t (pathN path) (backWalk path t s) (pathN path))).time ≤
          (seg path (j - 1)).time :=
        hmono _ (j - 1) (by omega) (by omega)
      linarith
    omega
  have hskipEq : skipWalk path (pathN path)
      (fwdWalk path t (pathN path) (backWalk path t s) (pathN path)) (pathN path) =
        fwdWalk path t (pathN path) (backWalk path t s) (pathN path) := by
    apply skipWalk_stop
    rw [hrj]
    rcases hskip with h | h
    · exact fun hcond => h hcond.2
    · intro hcond
      rw [h] at hcond
      exact lt_irrefl _ hcond.1
  have hfin : findIndex path s t =
      min (max (skipWalk path (pathN path)
        (fwdWalk path t (pathN path) (backWalk path t s) (pathN path)) (pathN path)) 0)
        (pathN path) := rfl
  rw [hfin, hskipEq, hrj]
  omega

/-- A query at time 0 (the sentinel's end time) lands on segment 1:
the walks stop at the sentinel, which the zero-dwell skip then passes. -/
lemma findIndex_at_zero (path : List Segment) (s : ℕ)
    (hmono : ∀ a b : ℕ, a ≤ b → b < path.length → (seg path a).time ≤ (seg path b).time)
    (hinit : seg path 0 = initSegment)
    (hn : 1 ≤ pathN path) (hs : s ≤ pathN path)
    (hpos : (seg path 0).time < (seg path 1).time)
    (hmode1 : (seg path 1).mode = 0) :
    findIndex path s ((seg path 0).time) = 1 := by
  have hlen2 : pathN path < path.length := by
    unfold pathN at hn ⊢
    omega
  have hb0 : backWalk path ((seg path 0).time) s = 0 := by
    rcases backWalk_stop path ((seg path 0).time) s with h0 | hle
    · exact h0
    · by_contra hne0
      have h1le : 1 ≤ backWalk path ((seg path 0).time) s := by omega
      have hup : (seg path 1).time ≤ (seg path (backWalk path ((seg path 0).time) s)).time :=
        hmono 1 _ h1le (by have := backWalk_le path ((seg path 0).time) s; omega)
      linarith
  obtain ⟨m, hm⟩ : ∃ m, pathN path = m + 1 := ⟨pathN path - 1, by omega⟩
  have hf0 : fwdWalk path ((seg path 0).time) (pathN path) 0 (pathN path) = 0 := by
    rw [hm]
    simp only [fwdWalk]
    rw [if_neg ?_]
    rintro ⟨_, hlt⟩
    exact lt_irrefl _ hlt
  have hsk : skipWalk path (pathN path) 0 (pathN path) = 1 := by
    rw [hm]
    simp only [skipWalk]
    rw [if_pos ⟨by omega, by rw [hinit]; rfl, by rw [hinit]; rfl⟩]
    apply skipWalk_stop
    rintro ⟨_, hm1, _⟩
    rw [hmode1] at hm1
    norm_num at hm1
  have hfin : findIndex path s ((seg path 0).time) =
      min (max (skipWalk path (pathN path)
        (fwdWalk path ((seg path 0).time) (pathN path)
          (backWalk path ((seg path 0).time) s) (pathN path)) (pathN path)) 0)
        (pathN path) := rfl
  rw [hfin, hb0, hf0, hsk]
  omega

/-- Interpolating a positive-duration segment at its own end time gives
the segment's end position (exact rational arithmetic). -/
lemma interpPosition_at_end (sp sc : Segment) (h : sp.time < sc.time) :
    interpPosition sp sc sc.time = sc.pos := by
  unfold interpPosition
  rw [if_pos (by linarith : sc.time - sp.time > 0)]
  have hne : sc.time - sp.time ≠ 0 := by linarith
  have h1 : ∀ a c : ℚ, a + (c - a) * (sc.time - sp.time) / (sc.time - sp.time) = c := by
    intro a c
    rw [mul_div_assoc, div_self hne, mul_one]
    ring
  rw [h1, h1, h1]

/-- Interpolating a segment at its start time gives the previous
segment's position. -/
lemma interpPosition_at_start (sp sc : Segment) :
    interpPosition sp sc sp.time = sp.pos := by
  unfold interpPosition
  by_cases hdt : sc.time - sp.time > 0
  · rw [if_pos hdt]
    have h1 : ∀ a c : ℚ, a + (c - a) * (sp.time - sp.time) / (sc.time - sp.time) = a := by
      intro a c
      rw [sub_self, mul_zero, zero_div, add_zero]
    rw [h1, h1, h1]
  · rw [if_neg hdt]

/-- The position written by a query that is not past the end of the
path, in terms of the landed index. -/
lemma move_position_eq (b : BeamState) (t : ℚ) (hnot : ¬(t - b.endTime > eps)) :
    (move b t).position =
      if (seg b.path (findIndex b.path b.index t)).mode = 1 then
        (seg b.path (findIndex b.path b.index t)).pos
      else
        interpPosition (seg b.path (findIndex b.path b.index t - 1))
          (seg b.path (findIndex b.path b.index t)) t := by
  unfold move
  rw [if_neg hnot]

/-- C8 counterexample: the claim fails as stated on two loaded paths.
First, a path whose single traverse carries zero power has end time 0,
so the query at the traverse's end time returns early and the position
stays at the origin instead of (1,0,0).  Second, a zero-duration dwell
that jumps to (9,9,9) shares its end time with the previous segment, and
a fresh query at that time lands on the earlier dwell, yielding (0,0,0)
instead of (9,9,9). -/
theorem scan_path_continuity_cex :
    ((seg beamZeroPower.path 1).mode = 0 ∧
     (seg beamZeroPower.path 0).time < (seg beamZeroPower.path 1).time ∧
     (move beamZeroPower ((seg beamZeroPower.path 1).time)).position ≠
       (seg beamZeroPower.path 1).pos) ∧
    ((seg beamTie.path 3).mode = 0 ∧
     (seg beamTie.path 2).time < (seg beamTie.path 3).time ∧
     (move beamTie ((seg beamTie.path 2).time)).position ≠ (seg beamTie.path 2).pos) := by
  refine ⟨⟨?_, ?_, ?_⟩, ?_, ?_, ?_⟩ <;> decide

/-- C8 amended: for a loaded path with non-decreasing times and any
cached index, and a segment `i` with mode 0 and positive duration,
querying at `time_end[i-1]` yields `position[i-1]` and querying at
`time_end[i]` yields `position[i]`, provided the queried times do not
exceed the stored end time by more than eps (the early return would
otherwise skip the position update) and no neighbouring segment shares
the endpoint times (`time_end` strictly increases from `i-2` to `i-1`
when `i ≥ 2` and from `i` to `i+1` when `i < n`; ties with
zero-duration dwells can land the walk on a different segment). -/
theorem scan_path_continuity (b : BeamState) (i : ℕ)
    (hload : loadedPath b.path)
    (hidx : b.index ≤ pathN b.path)
    (hi1 : 1 ≤ i) (hin : i ≤ pathN b.path)
    (hmode : (seg b.path i).mode = 0)
    (hdur : (seg b.path (i - 1)).time < (seg b.path i).time)
    (hbefore : i = 1 ∨ (seg b.path (i - 2)).time < (seg b.path (i - 1)).time)
    (hafter : i = pathN b.path ∨ (seg b.path i).time < (seg b.path (i + 1)).time)
    (hend : (seg b.path i).time - b.endTime ≤ eps) :
    (move b ((seg b.path (i - 1)).time)).position = (seg b.path (i - 1)).pos ∧
    (move b ((seg b.path i)).time).position = (seg b.path i).pos := by
  have hmono := loaded_time_mono b.path hload
  have hlen2 : pathN b.path < b.path.length := by
    unfold pathN at hin ⊢
    omega
  obtain ⟨hpne, hinit, hseg⟩ := hload
  constructor
  · have ht1 : (seg b.path (i - 1)).time - b.endTime ≤ eps := by linarith
    rw [move_position_eq b _ (not_lt.mpr ht1)]
    rcases hbefore with heq | hstrict
    · subst heq
      have hfi : findIndex b.path b.index ((seg b.path 0).time) = 1 :=
        findIndex_at_zero b.path b.index hmono hinit (by omega) hidx hdur hmode
      rw [hfi, if_neg (by rw [hmode]; norm_num)]
      exact interpPosition_at_start _ _
    · rcases Nat.eq_or_lt_of_le hi1 with heq1 | hi2
      · exfalso
        rw [← heq1] at hstrict
        exact lt_irrefl _ hstrict
      · have hfi : findIndex b.path b.index ((seg b.path (i - 1)).time) = i - 1 := by
          apply findIndex_eq_of b.path _ (i - 1) b.index hmono (by omega) (by omega) hidx
          · rw [show i - 1 - 1 = i - 2 from by omega]
            exact hstrict
          · exact le_refl _
          · left
            rintro ⟨hm1, hp0⟩
            have hk := hseg (i - 1) (by omega) (by omega)
            have hrec := hk.2.1 hm1
            rw [hp0, add_zero, show i - 1 - 1 = i - 2 from by omega] at hrec
            linarith
          · right
            rw [show i - 1 + 1 = i from by omega]
            exact hdur
        rw [hfi]
        have hk := hseg (i - 1) (by omega) (by omega)
        rcases hk.1 with hm0 | hm1
        · rw [if_neg (by rw [hm0]; norm_num)]
          rw [show i - 1 - 1 = i - 2 from by omega]
          exact interpPosition_at_end _ _ hstrict
        · rw [if_pos hm1]
  · rw [move_position_eq b _ (not_lt.mpr hend)]
    have hfi : findIndex b.path b.index ((seg b.path i).time) = i := by
      apply findIndex_eq_of b.path _ i b.index hmono hi1 hin hidx hdur (le_refl _)
      · left
        rintro ⟨hm1, _⟩
        rw [hmode] at hm1
        norm_num at hm1
      · exact hafter
    rw [hfi, if_neg (by rw [hmode]; norm_num)]
    exact interpPosition_at_end _ _ hdur

/-- C8 amended witness: the S3 path at segment i = 2 (the traverse),
whose endpoint times 1 and 2 are strictly separated and whose end time
equals the stored end time. -/
theorem scan_path_continuity_witness :
    (move beamS3 ((seg beamS3.path 1).time)).position = (seg beamS3.path 1).pos ∧
    (move beamS3 ((seg beamS3.path 2).time)).position = (seg beamS3.path 2).pos :=
  scan_path_continuity beamS3 2 (by decide) (by decide) (by decide) (by decide)
    (by decide) (by decide) (by decide) (by decide) (by decide)

end Finch

end
